import Mathlib

set_option maxHeartbeats 1000000

/-
Verification of workload/scripts/version_determinator.py.

The program is embedded shallowly: external effects (the file tree, the
revision history, the latest tag) are passed in as explicit data, and every
function of the script that the specification talks about is translated to a
Lean definition of the same name.  Machine strings are modelled as Lean
strings; the script only ever splits, trims and compares them, so no encoding
subtleties arise.  The one fallible external call of the core, the
point-in-time fetch performed with a revision-history subprocess, is modelled
as a function returning an Option; the script does not catch its failure, so
the predicate that performs it is embedded with an Except result.
-/

/-- Identity of a declared resource: the pair captured by the declaration
pattern, (resource type, resource name). -/
abbrev ResourceKey := String × String

/-- The fields declared inside one resource block: field name to raw value. -/
abbrev ResourceRecord := List (String × String)

/-- A parsed resource model: resource key to record, in insertion order. -/
abbrev Model := List (ResourceKey × ResourceRecord)

/-- Insert or overwrite a binding in an association list, keeping the original
position of an overwritten key, exactly as assignment into a Python dict. -/
def updA {α β : Type} [DecidableEq α] : List (α × β) → α → β → List (α × β)
  | [], k, v => [(k, v)]
  | (k0, v0) :: rest, k, v =>
    if k0 = k then (k, v) :: rest else (k0, v0) :: updA rest k v

/-- Lookup in an association list (first match; keys stay unique under updA). -/
def lookupA {α β : Type} [DecidableEq α] : List (α × β) → α → Option β
  | [], _ => none
  | (k0, v0) :: rest, k => if k0 = k then some v0 else lookupA rest k

/-- The keys of a model, in order. -/
def modelKeys (m : Model) : List ResourceKey := m.map Prod.fst

/-- Python content.split of a newline character: every line, including a final
empty line when the text ends in a newline, and one empty line for empty text. -/
def splitLines : List Char → List (List Char)
  | [] => [[]]
  | c :: cs =>
    if c = '\n' then [] :: splitLines cs
    else
      match splitLines cs with
      | [] => [[c]]
      | line :: rest => (c :: line) :: rest

/-- Python str.strip: drop leading and trailing whitespace. -/
def trimChars (l : List Char) : List Char :=
  ((l.dropWhile Char.isWhitespace).reverse.dropWhile Char.isWhitespace).reverse

/-- Python str.rstrip of a comma: drop every trailing comma. -/
def rstripCommas (l : List Char) : List Char :=
  (l.reverse.dropWhile (fun c => c = ',')).reverse

/-- Python str.split with maxsplit one: split at the first occurrence of the
separator; when the separator is absent the whole input is the first part. -/
def splitFirst (sep : Char) : List Char → List Char × List Char
  | [] => ([], [])
  | c :: cs =>
    if c = sep then ([], cs)
    else
      let p := splitFirst sep cs
      (c :: p.1, p.2)

/-- Match a literal character sequence at the front, returning the remainder. -/
def stripLit : List Char → List Char → Option (List Char)
  | [], rest => some rest
  | _ :: _, [] => none
  | p :: ps, c :: cs => if c = p then stripLit ps cs else none

/-- A regex word character (ASCII letter, digit or underscore). -/
def isWordChar (c : Char) : Bool := c.isAlphanum || c = '_'

/-- Longest prefix satisfying a predicate, with the remainder. -/
def spanP (p : Char → Bool) : List Char → List Char × List Char
  | [] => ([], [])
  | c :: cs =>
    if p c then
      let r := spanP p cs
      (c :: r.1, r.2)
    else ([], c :: cs)

/-- The anchored regex match of the resource-declaration pattern used by the
script: the literal word resource, whitespace, a quoted word (the type),
whitespace, a quoted word (the name), optional whitespace and an opening
brace.  Greedy character classes never backtrack here because each class is
disjoint from the character that must follow it, so maximal munch is exact. -/
def matchResourceDecl (line : List Char) : Option ResourceKey :=
  match stripLit ("resource").data line with
  | none => none
  | some r1 =>
    let s1 := spanP Char.isWhitespace r1
    if s1.1 = [] then none
    else
      match s1.2 with
      | '"' :: r2 =>
        let w1 := spanP isWordChar r2
        if w1.1 = [] then none
        else
          match w1.2 with
          | '"' :: r3 =>
            let s2 := spanP Char.isWhitespace r3
            if s2.1 = [] then none
            else
              match s2.2 with
              | '"' :: r4 =>
                let w2 := spanP isWordChar r4
                if w2.1 = [] then none
                else
                  match w2.2 with
                  | '"' :: r5 =>
                    match (spanP Char.isWhitespace r5).2 with
                    | '\x7b' :: _ => some (String.mk w1.1, String.mk w2.1)
                    | _ => none
                  | _ => none
              | _ => none
          | _ => none
      | _ => none

/-- One line of the parse loop of parse_resource: open a resource on a
declaration match; otherwise, while a block is open, a line containing an
equals sign stores a field, and a line that trims to a closing brace clears
the cursor; every other line is ignored. -/
def parseStep (st : Option ResourceKey × Model) (line : List Char) :
    Option ResourceKey × Model :=
  match matchResourceDecl line with
  | some key => (some key, updA st.2 key [])
  | none =>
    match st.1 with
    | some key =>
      if decide ('=' ∈ line) then
        let p := splitFirst '=' line
        let fld := String.mk (trimChars p.1)
        let v := String.mk (rstripCommas (trimChars p.2))
        (st.1, updA st.2 key (updA ((lookupA st.2 key).getD []) fld v))
      else if trimChars line = ['\x7d'] then (none, st.2)
      else (st.1, st.2)
    | none => (none, st.2)

/-- parse_resource of the script: scan the content line by line with a single
current-resource cursor, producing the model of declared resources. -/
def parse_resource (content : String) : Model :=
  ((splitLines content.data).foldl parseStep (none, [])).2

/-- read_file_content: the file tree is modelled as a partial map from path to
decodable text; a missing, unreadable or undecodable file yields the empty
string, exactly as every handled branch of the script does. -/
def read_file_content (fs : String → Option String) (path : String) : String :=
  (fs path).getD ""

/-- Python str.endswith of the configuration extension. -/
def endsWithTf (f : String) : Bool := List.isSuffixOf (".tf").data f.data

/-- Python str.startswith of the configuration root. -/
def underDir (cfg f : String) : Bool := List.isPrefixOf cfg.data f.data

/-- The files the full-tree walk visits that end in the extension; the walk
itself is modelled as the list of joined paths it produces. -/
def tfFilesUnder (walk : List String) : List String :=
  walk.filter (fun f => endsWithTf f)

/-- The changed paths that end in the extension and lie under the root. -/
def qualifyingChanged (changed : List String) (cfg : String) : List String :=
  changed.filter (fun f => endsWithTf f && underDir cfg f)

/-- dict.update with a whole parsed file: every parsed entry is written into
the accumulated model, later entries overwriting earlier ones per key. -/
def mergeModel (m : Model) (e : Model) : Model :=
  e.foldl (fun acc kv => updA acc kv.1 kv.2) m

/-- Accumulate the parsed models of a list of files, in order, last write
winning on key collision. -/
def buildModel (files : List String) (fs : String → Option String) : Model :=
  files.foldl (fun m f => mergeModel m (parse_resource (read_file_content fs f))) []

/-- The existing model: every qualifying file under the configuration root. -/
def full_tree_model (walk : List String) (fs : String → Option String) : Model :=
  buildModel (tfFilesUnder walk) fs

/-- The changed-subset model: the qualifying changed files, current content. -/
def changed_subset_model (changed : List String) (cfg : String)
    (fs : String → Option String) : Model :=
  buildModel (qualifyingChanged changed cfg) fs

/-- The resource types of a model: first components of its keys. -/
def typesOf (m : Model) : List String := (modelKeys m).map Prod.fst

/-- All resource keys parsed from a list of files, as accumulated into the
per-predicate sets of the script (set semantics: only membership matters). -/
def pairsIn (files : List String) (fs : String → Option String) : List ResourceKey :=
  files.flatMap (fun f => modelKeys (parse_resource (read_file_content fs f)))

/-- All resource types parsed from a list of files. -/
def typesIn (files : List String) (fs : String → Option String) : List String :=
  (pairsIn files fs).map Prod.fst

/-- is_new_resource_type: some type parsed from the qualifying changed files
is absent from the types parsed anywhere under the configuration root. -/
def is_new_resource_type (changed : List String) (cfg : String)
    (walk : List String) (fs : String → Option String) : Bool :=
  (typesIn (qualifyingChanged changed cfg) fs).any
    (fun t => decide (t ∉ typesIn (tfFilesUnder walk) fs))

/-- is_new_resource_iteration: some key parsed from the changed files has a
type that exists somewhere under the root, but the key itself does not. -/
def is_new_resource_iteration (changed : List String) (cfg : String)
    (walk : List String) (fs : String → Option String) : Bool :=
  (pairsIn (qualifyingChanged changed cfg) fs).any
    (fun p => (pairsIn (tfFilesUnder walk) fs).any (fun q => decide (q.1 = p.1)) &&
              decide (p ∉ pairsIn (tfFilesUnder walk) fs))

/-- is_file_added_or_renamed: some changed path ends in the extension and lies
under the configuration root. -/
def is_file_added_or_renamed (changed : List String) (cfg : String) : Bool :=
  changed.any (fun f => endsWithTf f && underDir cfg f)

/-- The field names of a record. -/
def fieldNames (r : ResourceRecord) : List String := r.map Prod.fst

/-- Python set equality of two name collections. -/
def sameNameSet (a b : List String) : Bool :=
  a.all (fun x => decide (x ∈ b)) && b.all (fun x => decide (x ∈ a))

/-- is_field_changed: some key of the changed-subset model also present in the
full-tree model has a different set of field names there. -/
def is_field_changed (changed : List String) (cfg : String)
    (walk : List String) (fs : String → Option String) : Bool :=
  (changed_subset_model changed cfg fs).any (fun kv =>
    match lookupA (full_tree_model walk fs) kv.1 with
    | some exRec => !sameNameSet (fieldNames kv.2) (fieldNames exRec)
    | none => false)

/-- is_field_value_changed: some key present in both models has a field
present in both records with a different textual value. -/
def is_field_value_changed (changed : List String) (cfg : String)
    (walk : List String) (fs : String → Option String) : Bool :=
  (changed_subset_model changed cfg fs).any (fun kv =>
    match lookupA (full_tree_model walk fs) kv.1 with
    | some exRec => kv.2.any (fun fv =>
        match lookupA exRec fv.1 with
        | some oldV => decide (¬ fv.2 = oldV)
        | none => false)
    | none => false)

/-- Whether a qualifying changed file has some key in its point-in-time
content that is absent from its current content. -/
def removedInFile (fs : String → Option String) (oldC : String) (f : String) : Bool :=
  (modelKeys (parse_resource oldC)).any
    (fun k => decide (k ∉ modelKeys (parse_resource (read_file_content fs f))))

/-- is_resource_removed_or_commented: for each qualifying changed file, fetch
its content at the literal revision HEAD through the revision-history
interface.  The script performs this fetch with a bare subprocess call and no
exception handler, so a failed fetch (the file does not exist at HEAD) is an
escaping error, modelled as the error case of the Except result. -/
def is_resource_removed_or_commented :
    List String → String → (String → Option String) →
      (String → String → Option String) → Except Unit Bool
  | [], _, _, _ => Except.ok false
  | f :: rest, cfg, fs, gitShow =>
    if endsWithTf f && underDir cfg f then
      match gitShow ("HEAD") f with
      | none => Except.error ()
      | some oldC =>
        if removedInFile fs oldC f then Except.ok true
        else is_resource_removed_or_commented rest cfg fs gitShow
    else is_resource_removed_or_commented rest cfg fs gitShow

/-- The three semantic-version increment classes. -/
inductive Increment
  | major
  | minor
  | patch
deriving DecidableEq

/-- The precedence resolution at the end of determine_version_increment: the
changes record is filled from the six predicates, then read back with major
first, minor second, patch third, and a final default of patch. -/
def version_policy (pNewType pNewIter pFileAdded pRemoved pField pFieldValue : Bool) :
    Increment :=
  let cMajor := pNewType
  let cMinor := pNewIter || pFileAdded || pRemoved
  let cPatch := pField || pFieldValue
  if cMajor then Increment.major
  else if cMinor then Increment.minor
  else if cPatch then Increment.patch
  else Increment.patch

/-- The external state determine_version_increment and main observe: latest
tag, changed paths, walked paths, working-tree contents and the
point-in-time fetch indexed by revision and path. -/
structure GitEnv where
  latest_tag : Option String
  changed_files : List String
  walk_files : List String
  fs : String → Option String
  gitShow : String → String → Option String

/-- determine_version_increment: with no latest tag the result is major before
any predicate is evaluated; otherwise the six predicates are evaluated in the
script's order and resolved by the policy.  The fourth predicate's escaping
error propagates, as the script has no handler for it. -/
def determine_version_increment (env : GitEnv) (cfg : String) : Except Unit Increment :=
  match env.latest_tag with
  | none => Except.ok Increment.major
  | some _ =>
    let p1 := is_new_resource_type env.changed_files cfg env.walk_files env.fs
    let p2 := is_new_resource_iteration env.changed_files cfg env.walk_files env.fs
    let p3 := is_file_added_or_renamed env.changed_files cfg
    match is_resource_removed_or_commented env.changed_files cfg env.fs env.gitShow with
    | Except.error e => Except.error e
    | Except.ok p4 =>
      let p5 := is_field_changed env.changed_files cfg env.walk_files env.fs
      let p6 := is_field_value_changed env.changed_files cfg env.walk_files env.fs
      Except.ok (version_policy p1 p2 p3 p4 p5 p6)

/-- The decimal digit characters. -/
def digitChar : Nat → Char
  | 0 => '0'
  | 1 => '1'
  | 2 => '2'
  | 3 => '3'
  | 4 => '4'
  | 5 => '5'
  | 6 => '6'
  | 7 => '7'
  | 8 => '8'
  | 9 => '9'
  | _ => '?'

/-- Fuel-driven decimal rendering, least significant digit pushed first. -/
def natToDigitsGo : Nat → Nat → List Char → List Char
  | 0, _, acc => acc
  | fuel + 1, n, acc =>
    if n < 10 then digitChar n :: acc
    else natToDigitsGo fuel (n / 10) (digitChar (n % 10) :: acc)

/-- Decimal rendering of a natural number, as Python str of an int. -/
def natToDigits (n : Nat) : List Char := natToDigitsGo (n + 1) n []

/-- Decimal value of a digit string, as Python int of a digit string. -/
def digitsToNat (l : List Char) : Nat :=
  l.foldl (fun a c => a * 10 + (c.toNat - 48)) 0

/-- The version string main produces: v then the three dot-separated parts. -/
def format_version (t : Nat × Nat × Nat) : String :=
  String.mk ('v' :: (natToDigits t.1 ++ '.' :: natToDigits t.2.1 ++
    '.' :: natToDigits t.2.2))

/-- The anchored tag pattern of main: v, digits, dot, digits, dot, digits,
anything after the third group ignored (prefix match). -/
def parseVTag (l : List Char) : Option (Nat × Nat × Nat) :=
  match l with
  | 'v' :: r =>
    let d1 := spanP Char.isDigit r
    if d1.1 = [] then none
    else
      match d1.2 with
      | '.' :: r2 =>
        let d2 := spanP Char.isDigit r2
        if d2.1 = [] then none
        else
          match d2.2 with
          | '.' :: r3 =>
            let d3 := spanP Char.isDigit r3
            if d3.1 = [] then none
            else some (digitsToNat d1.1, digitsToNat d2.1, digitsToNat d3.1)
          | _ => none
      | _ => none
  | _ => none

/-- Tag parsing on strings. -/
def parse_vtag (s : String) : Option (Nat × Nat × Nat) := parseVTag s.data

/-- The prior triple main starts from: the parsed tag when it matches, and
(0, 0, 0) when no tag exists or the tag does not match the pattern. -/
def prior_triple (latest_tag : Option String) : Nat × Nat × Nat :=
  match latest_tag with
  | none => (0, 0, 0)
  | some t =>
    match parse_vtag t with
    | some tr => tr
    | none => (0, 0, 0)

/-- The bump main applies to the prior triple. -/
def apply_increment (inc : Increment) (t : Nat × Nat × Nat) : Nat × Nat × Nat :=
  match inc with
  | Increment.major => (t.1 + 1, 0, 0)
  | Increment.minor => (t.1, t.2.1 + 1, 0)
  | Increment.patch => (t.1, t.2.1, t.2.2 + 1)

/-- The new version main publishes, from the observed tag and the increment. -/
def next_version (latest_tag : Option String) (inc : Increment) : String :=
  format_version (apply_increment inc (prior_triple latest_tag))

/-- An environment with no tag at all, everything else arbitrary. -/
def exEnvNone : GitEnv := GitEnv.mk none [] [] (fun _ => none) (fun _ _ => none)

/-- The file tree of Scenario B: one existing file declaring the key
(aws_instance, web), and a changed file declaring (aws_s3_bucket, logs). -/
def exFsB : String → Option String := fun f =>
  if f = ("config/main.tf") then
    some ("resource \"aws_instance\" \"web\" \x7b\n  ami = 1\n\x7d")
  else if f = ("config/new.tf") then
    some ("resource \"aws_s3_bucket\" \"logs\" \x7b\n  acl = 2\n\x7d")
  else none

/-- The environment of Scenario B: prior tag v1.2.3, the walk visits the
existing file, the changed list holds the new file, and the point-in-time
fetch answers with the current contents. -/
def exEnvB : GitEnv :=
  GitEnv.mk (some ("v1.2.3")) (["config/new.tf"]) (["config/main.tf"]) exFsB
    (fun _ f => exFsB f)

/-- A constant one-file tree shared by the walk and the changed list. -/
def exFsShared : String → Option String :=
  fun _ => some ("resource \"t\" \"n\" \x7b\n  a = 1\n\x7d")

/-- A one-file tree where the current content of the changed file is empty
(the file is gone from the working tree) while HEAD still holds a resource. -/
def exShowW : String → String → Option String :=
  fun _ _ => some ("resource \"t\" \"x\" \x7b\n\x7d")

/-- The current working tree of the C5 counterexample: one file with one
resource. -/
def exFsCex : String → Option String := fun f =>
  if f = ("c/a.tf") then some ("resource \"t\" \"x\" \x7b\n\x7d") else none

/-- The revision history of the C5 counterexample: at the prior release point
v1.0.0 (which is the latest tag, so it is the reference revision) the file
still declared a second resource (t, y); the commit HEAD already agrees with
the working tree. -/
def exShowCex : String → String → Option String := fun rev f =>
  if rev = ("HEAD") then
    (if f = ("c/a.tf") then some ("resource \"t\" \"x\" \x7b\n\x7d") else none)
  else if rev = ("v1.0.0") then
    (if f = ("c/a.tf") then
      some ("resource \"t\" \"x\" \x7b\n\x7d\nresource \"t\" \"y\" \x7b\n\x7d")
     else none)
  else none

/-- The C5 counterexample environment, whose latest tag is v1.0.0. -/
def exEnvCex : GitEnv :=
  GitEnv.mk (some ("v1.0.0")) (["c/a.tf"]) (["c/a.tf"]) exFsCex exShowCex

/-- Modelled from the spec: the transformation the spec describes for the
value text, stripping exactly one trailing comma.  Declared only to compare
the spec's words against the code, which strips them all. -/
def rstripOneComma (l : List Char) : List Char :=
  if l.getLast? = some ',' then l.dropLast else l

/-- The empty parser state. -/
def exSt : Option ResourceKey × Model := (none, [])

/-- C1: the version policy resolves the six predicate outcomes under the
fixed precedence major, then minor, then patch: a true major-class predicate
forces major; otherwise a true minor-class predicate (new iteration, file
added or renamed, resource removed or commented) forces minor; otherwise a
true patch-class predicate (field changed, field value changed) gives patch;
and with all six predicates false the decision defaults to patch. -/
theorem version_policy_precedence :
    ∀ p1 p2 p3 p4 p5 p6 : Bool,
      (p1 = true → version_policy p1 p2 p3 p4 p5 p6 = Increment.major) ∧
      (p1 = false → (p2 = true ∨ p3 = true ∨ p4 = true) →
        version_policy p1 p2 p3 p4 p5 p6 = Increment.minor) ∧
      (p1 = false → p2 = false → p3 = false → p4 = false →
        (p5 = true ∨ p6 = true) →
        version_policy p1 p2 p3 p4 p5 p6 = Increment.patch) ∧
      (p1 = false → p2 = false → p3 = false → p4 = false → p5 = false →
        p6 = false → version_policy p1 p2 p3 p4 p5 p6 = Increment.patch) := by
  intro p1 p2 p3 p4 p5 p6
  cases p1 <;> cases p2 <;> cases p3 <;> cases p4 <;> cases p5 <;> cases p6 <;>
    simp [version_policy]

/-- Witness for C1: a concrete combination, minor-class only, resolves to
minor through the precedence theorem. -/
theorem version_policy_precedence_witness :
    (false : Bool) = false ∧
    ((true : Bool) = true ∨ (false : Bool) = true ∨ (false : Bool) = true) ∧
    version_policy false true false false false false = Increment.minor :=
  ⟨rfl, Or.inl rfl,
    (version_policy_precedence false true false false false false).2.1 rfl (Or.inl rfl)⟩

/-- C3: with no prior version tag the version-increment decision is major,
before and therefore independent of every predicate outcome and of the
configuration contents, and main computes the result from the prior triple
(0, 0, 0), so the produced version is v1.0.0. -/
theorem no_prior_tag_forces_major (env : GitEnv) (cfg : String)
    (h : env.latest_tag = none) :
    determine_version_increment env cfg = Except.ok Increment.major ∧
    prior_triple env.latest_tag = (0, 0, 0) ∧
    next_version env.latest_tag Increment.major = ("v1.0.0") := by
  refine ⟨?_, ?_, ?_⟩
  · unfold determine_version_increment
    rw [h]
  · rw [h]
    rfl
  · rw [h]
    decide

/-- Witness for C3 at a concrete tagless environment. -/
theorem no_prior_tag_forces_major_witness :
    exEnvNone.latest_tag = none ∧
    (determine_version_increment exEnvNone ("config") = Except.ok Increment.major ∧
     prior_triple exEnvNone.latest_tag = (0, 0, 0) ∧
     next_version exEnvNone.latest_tag Increment.major = ("v1.0.0")) :=
  ⟨rfl, no_prior_tag_forces_major exEnvNone ("config") rfl⟩

/-- C4: Scenario B end to end.  With the existing model holding only
(aws_instance, web) and the changed file declaring (aws_s3_bucket, logs), the
NewResourceType predicate is true, the increment decision is major, and a
prior version v1.2.3 produces v2.0.0. -/
theorem scenario_b_new_type_major :
    is_new_resource_type (["config/new.tf"]) ("config") (["config/main.tf"]) exFsB
        = true ∧
    determine_version_increment exEnvB ("config") = Except.ok Increment.major ∧
    next_version (some ("v1.2.3")) Increment.major = ("v2.0.0") := by
  refine ⟨by decide, rfl, by decide⟩

/-- C7: a missing or undecodable file is absorbed into an empty model, but
the point-in-time fetch inside is_resource_removed_or_commented is not
guarded, so a changed file with no content at the fetched revision (for
example a file that did not exist yet) makes the error escape the predicate
instead of being absorbed there. -/
theorem removed_or_commented_error_escapes :
    read_file_content (fun _ => none) ("config/a.tf") = ("") ∧
    parse_resource ("") = [] ∧
    is_resource_removed_or_commented (["config/new.tf"]) ("config")
        (fun _ => none) (fun _ _ => none) = Except.error () := by
  refine ⟨rfl, by decide, rfl⟩

lemma natToDigitsGo_append (fuel : Nat) :
    ∀ (n : Nat) (acc : List Char), n < fuel →
      natToDigitsGo fuel n acc = natToDigitsGo fuel n [] ++ acc := by
  induction fuel with
  | zero => intro n acc h; omega
  | succ fuel ih =>
    intro n acc h
    by_cases h10 : n < 10
    · simp [natToDigitsGo, h10]
    · have hdiv : n / 10 < fuel := by
        have hlt : n / 10 < n := Nat.div_lt_self (by omega) (by omega)
        omega
      simp only [natToDigitsGo, if_neg h10]
      rw [ih (n / 10) (digitChar (n % 10) :: acc) hdiv,
          ih (n / 10) ([digitChar (n % 10)]) hdiv]
      simp

lemma digitChar_toNat (d : Nat) (h : d < 10) : (digitChar d).toNat - 48 = d := by
  interval_cases d <;> rfl

lemma digitChar_isDigit (d : Nat) (h : d < 10) : (digitChar d).isDigit = true := by
  interval_cases d <;> decide

lemma digitsToNat_append_singleton (l : List Char) (c : Char) :
    digitsToNat (l ++ [c]) = digitsToNat l * 10 + (c.toNat - 48) := by
  simp [digitsToNat, List.foldl_append]

lemma digitsToNat_natToDigitsGo (fuel : Nat) :
    ∀ n : Nat, n < fuel → digitsToNat (natToDigitsGo fuel n []) = n := by
  induction fuel with
  | zero => intro n h; omega
  | succ fuel ih =>
    intro n h
    by_cases h10 : n < 10
    · simp [natToDigitsGo, h10, digitsToNat, digitChar_toNat n h10]
    · have hdiv : n / 10 < fuel := by
        have hlt : n / 10 < n := Nat.div_lt_self (by omega) (by omega)
        omega
      simp only [natToDigitsGo, if_neg h10]
      rw [natToDigitsGo_append fuel (n / 10) ([digitChar (n % 10)]) hdiv,
          digitsToNat_append_singleton, ih (n / 10) hdiv,
          digitChar_toNat (n % 10) (Nat.mod_lt n (by omega))]
      omega

lemma digitsToNat_natToDigits (n : Nat) : digitsToNat (natToDigits n) = n :=
  digitsToNat_natToDigitsGo (n + 1) n (Nat.lt_succ_self n)

lemma natToDigitsGo_digits (fuel : Nat) :
    ∀ (n : Nat) (acc : List Char), (∀ c ∈ acc, c.isDigit = true) →
      ∀ c ∈ natToDigitsGo fuel n acc, c.isDigit = true := by
  induction fuel with
  | zero =>
    intro n acc hacc
    simpa [natToDigitsGo] using hacc
  | succ fuel ih =>
    intro n acc hacc
    by_cases h10 : n < 10
    · simp only [natToDigitsGo, if_pos h10]
      intro c hc
      rcases List.mem_cons.mp hc with h | h
      · subst h
        exact digitChar_isDigit n h10
      · exact hacc c h
    · simp only [natToDigitsGo, if_neg h10]
      apply ih
      intro c hc
      rcases List.mem_cons.mp hc with h | h
      · subst h
        exact digitChar_isDigit (n % 10) (Nat.mod_lt n (by omega))
      · exact hacc c h

lemma natToDigits_digits (n : Nat) : ∀ c ∈ natToDigits n, c.isDigit = true :=
  natToDigitsGo_digits (n + 1) n [] (by simp)

lemma natToDigitsGo_ne_nil (fuel : Nat) :
    ∀ (n : Nat) (acc : List Char), n < fuel → natToDigitsGo fuel n acc ≠ [] := by
  induction fuel with
  | zero => intro n acc h; omega
  | succ fuel ih =>
    intro n acc h
    by_cases h10 : n < 10
    · simp [natToDigitsGo, h10]
    · have hdiv : n / 10 < fuel := by
        have hlt : n / 10 < n := Nat.div_lt_self (by omega) (by omega)
        omega
      simp only [natToDigitsGo, if_neg h10]
      exact ih (n / 10) (digitChar (n % 10) :: acc) hdiv

lemma natToDigits_ne_nil (n : Nat) : natToDigits n ≠ [] :=
  natToDigitsGo_ne_nil (n + 1) n [] (Nat.lt_succ_self n)

lemma spanP_append_of_all (p : Char → Bool) (l : List Char) (d : Char)
    (rest : List Char) (hl : ∀ c ∈ l, p c = true) (hd : p d = false) :
    spanP p (l ++ d :: rest) = (l, d :: rest) := by
  induction l with
  | nil => simp [spanP, hd]
  | cons c cs ih =>
    have hc : p c = true := hl c (List.mem_cons_self c cs)
    have ih2 := ih (fun x hx => hl x (List.mem_cons_of_mem c hx))
    simp [spanP, hc, ih2]

lemma spanP_all (p : Char → Bool) (l : List Char) (hl : ∀ c ∈ l, p c = true) :
    spanP p l = (l, []) := by
  induction l with
  | nil => simp [spanP]
  | cons c cs ih =>
    have hc : p c = true := hl c (List.mem_cons_self c cs)
    have ih2 := ih (fun x hx => hl x (List.mem_cons_of_mem c hx))
    simp [spanP, hc, ih2]

lemma parseVTag_digits (A B C : List Char)
    (hA : ∀ c ∈ A, c.isDigit = true) (hA0 : A ≠ [])
    (hB : ∀ c ∈ B, c.isDigit = true) (hB0 : B ≠ [])
    (hC : ∀ c ∈ C, c.isDigit = true) (hC0 : C ≠ []) :
    parseVTag ('v' :: (A ++ '.' :: (B ++ '.' :: C))) =
      some (digitsToNat A, digitsToNat B, digitsToNat C) := by
  simp only [parseVTag]
  rw [spanP_append_of_all Char.isDigit A '.' (B ++ '.' :: C) hA (by decide)]
  simp only [if_neg hA0]
  rw [spanP_append_of_all Char.isDigit B '.' C hB (by decide)]
  simp only [if_neg hB0]
  rw [spanP_all Char.isDigit C hC]
  simp only [if_neg hC0]

/-- C8: version arithmetic round-trip.  Formatting any non-negative triple as
a v-prefixed dotted version string and re-parsing it with the tag pattern of
main yields exactly the same triple. -/
theorem version_roundtrip (a b c : Nat) :
    parse_vtag (format_version (a, b, c)) = some (a, b, c) := by
  have h := parseVTag_digits (natToDigits a) (natToDigits b) (natToDigits c)
    (natToDigits_digits a) (natToDigits_ne_nil a)
    (natToDigits_digits b) (natToDigits_ne_nil b)
    (natToDigits_digits c) (natToDigits_ne_nil c)
  simpa [parse_vtag, format_version, digitsToNat_natToDigits] using h

lemma mem_map_fst_updA {α β : Type} [DecidableEq α] (l : List (α × β)) (k : α)
    (v : β) (a : α) :
    a ∈ (updA l k v).map Prod.fst ↔ a ∈ l.map Prod.fst ∨ a = k := by
  induction l with
  | nil => simp [updA]
  | cons kv rest ih =>
    obtain ⟨k0, v0⟩ := kv
    by_cases h : k0 = k
    · subst h
      simp [updA]
      tauto
    · simp [updA, h, ih]
      tauto

lemma mem_modelKeys_updA (m : Model) (k : ResourceKey) (r : ResourceRecord)
    (a : ResourceKey) :
    a ∈ modelKeys (updA m k r) ↔ a ∈ modelKeys m ∨ a = k :=
  mem_map_fst_updA m k r a

lemma mem_modelKeys_mergeModel (e : Model) :
    ∀ (m : Model) (a : ResourceKey),
      a ∈ modelKeys (mergeModel m e) ↔ a ∈ modelKeys m ∨ a ∈ modelKeys e := by
  induction e with
  | nil => intro m a; simp [mergeModel, modelKeys]
  | cons kv rest ih =>
    intro m a
    have hstep : mergeModel m (kv :: rest) = mergeModel (updA m kv.1 kv.2) rest := rfl
    rw [hstep, ih (updA m kv.1 kv.2) a, mem_modelKeys_updA]
    simp [modelKeys]
    tauto

lemma mem_modelKeys_foldMerge (files : List String) (fs : String → Option String) :
    ∀ (init : Model) (a : ResourceKey),
      a ∈ modelKeys (files.foldl
          (fun m f => mergeModel m (parse_resource (read_file_content fs f))) init) ↔
        a ∈ modelKeys init ∨
          ∃ f ∈ files, a ∈ modelKeys (parse_resource (read_file_content fs f)) := by
  induction files with
  | nil => intro init a; simp
  | cons f rest ih =>
    intro init a
    simp only [List.foldl_cons]
    rw [ih, mem_modelKeys_mergeModel]
    simp only [List.mem_cons]
    constructor
    · rintro ((h | h) | ⟨g, hg, hkg⟩)
      · exact Or.inl h
      · exact Or.inr ⟨f, Or.inl rfl, h⟩
      · exact Or.inr ⟨g, Or.inr hg, hkg⟩
    · rintro (h | ⟨g, (rfl | hg), hkg⟩)
      · exact Or.inl (Or.inl h)
      · exact Or.inl (Or.inr hkg)
      · exact Or.inr ⟨g, hg, hkg⟩

lemma mem_modelKeys_buildModel (files : List String) (fs : String → Option String)
    (a : ResourceKey) :
    a ∈ modelKeys (buildModel files fs) ↔
      ∃ f ∈ files, a ∈ modelKeys (parse_resource (read_file_content fs f)) := by
  have h := mem_modelKeys_foldMerge files fs [] a
  simpa [buildModel, modelKeys] using h

lemma mem_pairsIn (files : List String) (fs : String → Option String)
    (a : ResourceKey) :
    a ∈ pairsIn files fs ↔
      ∃ f ∈ files, a ∈ modelKeys (parse_resource (read_file_content fs f)) := by
  simp [pairsIn]

lemma mem_pairsIn_iff_mem_buildModel (files : List String)
    (fs : String → Option String) (a : ResourceKey) :
    a ∈ pairsIn files fs ↔ a ∈ modelKeys (buildModel files fs) := by
  rw [mem_pairsIn, mem_modelKeys_buildModel]

lemma mem_typesIn_iff_mem_typesOf (files : List String)
    (fs : String → Option String) (t : String) :
    t ∈ typesIn files fs ↔ t ∈ typesOf (buildModel files fs) := by
  simp only [typesIn, typesOf, List.mem_map]
  constructor
  · rintro ⟨k, hk, rfl⟩
    exact ⟨k, (mem_pairsIn_iff_mem_buildModel files fs k).mp hk, rfl⟩
  · rintro ⟨k, hk, rfl⟩
    exact ⟨k, (mem_pairsIn_iff_mem_buildModel files fs k).mpr hk, rfl⟩

/-- C2: the NewResourceType predicate is true exactly when the set difference
between the types of the changed-subset model and the types of the full-tree
model is non-empty. -/
theorem new_resource_type_iff_types_diff (changed : List String) (cfg : String)
    (walk : List String) (fs : String → Option String) :
    is_new_resource_type changed cfg walk fs = true ↔
      ∃ t, t ∈ typesOf (changed_subset_model changed cfg fs) ∧
           t ∉ typesOf (full_tree_model walk fs) := by
  simp only [is_new_resource_type, List.any_eq_true, decide_eq_true_eq,
    mem_typesIn_iff_mem_typesOf]
  rfl

/-- C9: when every changed path that qualifies (extension and root) is also
visited by the full-tree walk, with the one shared file tree supplying
identical content to both passes, the keys accumulated from the changed
subset are a subset of the keys accumulated from the full tree, and both
NewResourceType and NewResourceIteration are false. -/
theorem changed_subset_no_new_type_or_iteration (changed walk : List String)
    (cfg : String) (fs : String → Option String)
    (h : ∀ f ∈ changed, (endsWithTf f && underDir cfg f) = true → f ∈ walk) :
    (∀ k ∈ modelKeys (changed_subset_model changed cfg fs),
        k ∈ modelKeys (full_tree_model walk fs)) ∧
    is_new_resource_type changed cfg walk fs = false ∧
    is_new_resource_iteration changed cfg walk fs = false := by
  have hfiles : ∀ f ∈ qualifyingChanged changed cfg, f ∈ tfFilesUnder walk := by
    intro f hf
    rw [qualifyingChanged, List.mem_filter] at hf
    rw [tfFilesUnder, List.mem_filter]
    refine ⟨h f hf.1 hf.2, ?_⟩
    exact (Bool.and_eq_true_iff.mp hf.2).1
  have hpairs : ∀ k ∈ pairsIn (qualifyingChanged changed cfg) fs,
      k ∈ pairsIn (tfFilesUnder walk) fs := by
    intro k hk
    rw [mem_pairsIn] at hk ⊢
    obtain ⟨f, hf, hkf⟩ := hk
    exact ⟨f, hfiles f hf, hkf⟩
  refine ⟨?_, ?_, ?_⟩
  · intro k hk
    rw [changed_subset_model] at hk
    rw [full_tree_model]
    rw [← mem_pairsIn_iff_mem_buildModel] at hk
    rw [← mem_pairsIn_iff_mem_buildModel]
    exact hpairs k hk
  · rw [is_new_resource_type, List.any_eq_false]
    intro t ht
    simp only [decide_eq_true_eq, Decidable.not_not]
    rw [typesIn, List.mem_map] at ht
    obtain ⟨k, hk, rfl⟩ := ht
    rw [typesIn, List.mem_map]
    exact ⟨k, hpairs k hk, rfl⟩
  · rw [is_new_resource_iteration, List.any_eq_false]
    intro p hp
    have hmem : p ∈ pairsIn (tfFilesUnder walk) fs := hpairs p hp
    simp [hmem]

/-- Witness for C9: a concrete changed list contained in the walk. -/
theorem changed_subset_no_new_type_or_iteration_witness :
    (∀ f ∈ (["d/a.tf"] : List String),
        (endsWithTf f && underDir ("d") f) = true → f ∈ (["d/a.tf"] : List String)) ∧
    ((∀ k ∈ modelKeys (changed_subset_model (["d/a.tf"]) ("d") exFsShared),
        k ∈ modelKeys (full_tree_model (["d/a.tf"]) exFsShared)) ∧
     is_new_resource_type (["d/a.tf"]) ("d") (["d/a.tf"]) exFsShared = false ∧
     is_new_resource_iteration (["d/a.tf"]) ("d") (["d/a.tf"]) exFsShared = false) :=
  ⟨by decide,
    changed_subset_no_new_type_or_iteration (["d/a.tf"]) (["d/a.tf"]) ("d")
      exFsShared (by decide)⟩

/-- C5 (amended): provided every qualifying changed file can be fetched at
HEAD, the ResourceRemovedOrCommented predicate answers true exactly when some
qualifying changed file has a resource key in its HEAD content that is absent
from its current working content.  The revision fetched is the literal HEAD
of the script, not the prior release point. -/
theorem removed_or_commented_iff_head_diff (changed : List String) (cfg : String)
    (fs : String → Option String) (gitShow : String → String → Option String)
    (h : ∀ f ∈ changed, (endsWithTf f && underDir cfg f) = true →
          (gitShow ("HEAD") f).isSome = true) :
    (is_resource_removed_or_commented changed cfg fs gitShow = Except.ok true ↔
      ∃ f ∈ changed, (endsWithTf f && underDir cfg f) = true ∧
        ∃ k ∈ modelKeys (parse_resource ((gitShow ("HEAD") f).getD (""))),
          k ∉ modelKeys (parse_resource (read_file_content fs f))) := by
  induction changed with
  | nil => simp [is_resource_removed_or_commented]
  | cons f rest ih =>
    have hrest := ih (fun g hg => h g (List.mem_cons_of_mem f hg))
    by_cases hq : (endsWithTf f && underDir cfg f) = true
    · have hs := h f (List.mem_cons_self f rest) hq
      obtain ⟨oldC, hoc⟩ := Option.isSome_iff_exists.mp hs
      have hstep : is_resource_removed_or_commented (f :: rest) cfg fs gitShow =
          (if removedInFile fs oldC f = true then Except.ok true
           else is_resource_removed_or_commented rest cfg fs gitShow) := by
        rw [is_resource_removed_or_commented, if_pos hq, hoc]
      rw [hstep]
      by_cases hr : removedInFile fs oldC f = true
      · rw [if_pos hr]
        constructor
        · intro _
          refine ⟨f, List.mem_cons_self f rest, hq, ?_⟩
          rw [hoc]
          rw [removedInFile, List.any_eq_true] at hr
          obtain ⟨k, hk, hknot⟩ := hr
          exact ⟨k, hk, of_decide_eq_true hknot⟩
        · intro _
          rfl
      · rw [if_neg hr, hrest]
        constructor
        · rintro ⟨g, hg, hgq, hk⟩
          exact ⟨g, List.mem_cons_of_mem f hg, hgq, hk⟩
        · rintro ⟨g, hg, hgq, k, hk1, hk2⟩
          rcases List.mem_cons.mp hg with heq | hg2
          · exfalso
            apply hr
            rw [removedInFile, List.any_eq_true]
            subst heq
            rw [hoc] at hk1
            exact ⟨k, hk1, decide_eq_true hk2⟩
          · exact ⟨g, hg2, hgq, k, hk1, hk2⟩
    · rw [is_resource_removed_or_commented, if_neg hq, hrest]
      constructor
      · rintro ⟨g, hg, hgq, hk⟩
        exact ⟨g, List.mem_cons_of_mem f hg, hgq, hk⟩
      · rintro ⟨g, hg, hgq, hk⟩
        rcases List.mem_cons.mp hg with heq | hg2
        · exact absurd (heq ▸ hgq) hq
        · exact ⟨g, hg2, hgq, hk⟩

/-- Witness for the amended C5: predicate true exactly matches the key
difference at a concrete input satisfying the fetch hypothesis. -/
theorem removed_or_commented_iff_head_diff_witness :
    (∀ f ∈ (["c/a.tf"] : List String),
        (endsWithTf f && underDir ("c") f) = true →
          (exShowW ("HEAD") f).isSome = true) ∧
    (is_resource_removed_or_commented (["c/a.tf"]) ("c") (fun _ => none) exShowW
        = Except.ok true ↔
      ∃ f ∈ (["c/a.tf"] : List String),
        (endsWithTf f && underDir ("c") f) = true ∧
        ∃ k ∈ modelKeys (parse_resource ((exShowW ("HEAD") f).getD (""))),
          k ∉ modelKeys (parse_resource (read_file_content (fun _ => none) f))) :=
  ⟨by decide,
    removed_or_commented_iff_head_diff (["c/a.tf"]) ("c") (fun _ => none) exShowW
      (by decide)⟩

/-- Counterexample to C5 as stated: the key (t, y) is present in the changed
file's content at the reference revision (the prior release point, the
latest tag v1.0.0 of this history) and absent from its current content, so
the claim demands the predicate be true; the code answers false, because it
fetches the file at HEAD instead of at the reference revision. -/
theorem removed_or_commented_ref_revision_cex :
    exEnvCex.latest_tag = some ("v1.0.0") ∧
    is_resource_removed_or_commented exEnvCex.changed_files ("c") exEnvCex.fs
        exEnvCex.gitShow = Except.ok false ∧
    (("t", "y")) ∈ modelKeys
        (parse_resource ((exEnvCex.gitShow ("v1.0.0") ("c/a.tf")).getD (""))) ∧
    (("t", "y")) ∉ modelKeys
        (parse_resource (read_file_content exEnvCex.fs ("c/a.tf"))) := by
  refine ⟨rfl, rfl, by decide, by decide⟩

lemma splitLines_append (l r : List Char) (hl : ('\n') ∉ l) :
    splitLines (l ++ '\n' :: r) = l :: splitLines r := by
  induction l with
  | nil => simp [splitLines]
  | cons c cs ih =>
    have hc : ¬ c = '\n' := by
      intro heq
      subst heq
      exact hl (List.mem_cons_self _ _)
    have ih2 := ih (fun hmem => hl (List.mem_cons_of_mem c hmem))
    simp [splitLines, hc, ih2]

lemma splitFirst_append (sep : Char) (l r : List Char) (h : sep ∉ l) :
    splitFirst sep (l ++ sep :: r) = (l, r) := by
  induction l with
  | nil => simp [splitFirst]
  | cons c cs ih =>
    have hc : ¬ c = sep := by
      intro heq
      subst heq
      exact h (List.mem_cons_self _ _)
    have ih2 := ih (fun hmem => h (List.mem_cons_of_mem c hmem))
    simp [splitFirst, hc, ih2]

lemma matchResourceDecl_ws (c : Char) (l : List Char) (h : c.isWhitespace = true) :
    matchResourceDecl (c :: l) = none := by
  have hc : ¬ c = 'r' := by
    intro heq
    subst heq
    exact absurd h (by decide)
  have hd : ("resource").data = 'r' :: ("esource").data := rfl
  unfold matchResourceDecl
  rw [hd]
  simp [stripLit, hc]

lemma parseStep_field (k : ResourceKey) (M : Model) (fpre v : List Char)
    (hm : matchResourceDecl (fpre ++ '=' :: v) = none) (hf : ('=') ∉ fpre) :
    parseStep (some k, M) (fpre ++ '=' :: v) =
      (some k, updA M k (updA ((lookupA M k).getD [])
        (String.mk (trimChars fpre)) (String.mk (rstripCommas (trimChars v))))) := by
  have hmem : decide (('=') ∈ (fpre ++ '=' :: v)) = true :=
    decide_eq_true (List.mem_append_right fpre (List.mem_cons_self '=' v))
  unfold parseStep
  rw [hm]
  simp only [hmem, if_true]
  rw [splitFirst_append '=' fpre v hf]

lemma parseStep_close (k : ResourceKey) (M : Model) :
    parseStep (some k, M) (['\x7d']) = (none, M) := by
  have e1 : matchResourceDecl (['\x7d']) = none := by decide
  have e2 : decide (('=') ∈ (['\x7d'] : List Char)) = false := by decide
  have e3 : trimChars (['\x7d']) = ['\x7d'] := by decide
  unfold parseStep
  rw [e1]
  simp [e2, e3]

/-- C6 (amended): for a field-assignment line parsed while a resource block
is open, the stored value is the text after the first equals sign, trimmed of
surrounding whitespace and with every trailing comma removed (not only one),
and the stored field name is the trimmed text before it. -/
theorem field_value_strips_all_trailing_commas (fpre v : List Char)
    (hm : matchResourceDecl (fpre ++ '=' :: v) = none)
    (hf : ('=') ∉ fpre) (hp : ('\n') ∉ fpre) (hv : ('\n') ∉ v) :
    parse_resource (String.mk (("resource \"t\" \"n\" \x7b").data ++
        '\n' :: ((fpre ++ '=' :: v) ++ '\n' :: (['\x7d'])))) =
      [((("t"), ("n")),
        [(String.mk (trimChars fpre), String.mk (rstripCommas (trimChars v)))])] := by
  have hnl : ('\n') ∉ (fpre ++ '=' :: v) := by
    intro hmem
    rcases List.mem_append.mp hmem with hin | hin
    · exact hp hin
    · rcases List.mem_cons.mp hin with hin | hin
      · exact absurd hin (by decide)
      · exact hv hin
  show ((splitLines (("resource \"t\" \"n\" \x7b").data ++
      '\n' :: ((fpre ++ '=' :: v) ++ '\n' :: (['\x7d'])))).foldl parseStep
        (none, [])).2 = _
  rw [splitLines_append _ _ (by decide), splitLines_append _ _ hnl]
  have e0 : splitLines (['\x7d']) = [['\x7d']] := rfl
  rw [e0]
  simp only [List.foldl_cons, List.foldl_nil]
  have s1 : parseStep (none, []) (("resource \"t\" \"n\" \x7b").data) =
      (some (("t"), ("n")), [((("t"), ("n")), [])]) := by decide
  rw [s1, parseStep_field (("t"), ("n")) ([((("t"), ("n")), [])]) fpre v hm hf,
      parseStep_close]
  simp [updA, lookupA]

/-- Witness for the amended C6 at the field line " tags = a,b,,": field name
tags, stored value a,b with both trailing commas gone. -/
theorem field_value_strips_all_trailing_commas_witness :
    (matchResourceDecl (((" tags ").data) ++ '=' :: ((" a,b,,").data)) = none ∧
     ('=') ∉ ((" tags ").data) ∧ ('\n') ∉ ((" tags ").data) ∧
     ('\n') ∉ ((" a,b,,").data)) ∧
    parse_resource (String.mk (("resource \"t\" \"n\" \x7b").data ++
        '\n' :: ((((" tags ").data) ++ '=' :: ((" a,b,,").data)) ++
          '\n' :: (['\x7d'])))) =
      [((("t"), ("n")),
        [(String.mk (trimChars ((" tags ").data)),
          String.mk (rstripCommas (trimChars ((" a,b,,").data))))])] :=
  ⟨⟨by decide, by decide, by decide, by decide⟩,
    field_value_strips_all_trailing_commas ((" tags ").data) ((" a,b,,").data)
      (by decide) (by decide) (by decide) (by decide)⟩

/-- Counterexample to C6 as stated: on the field line " x = 1,,," the claim
demands the stored value be the trimmed text with exactly one trailing comma
removed, which is 1 followed by two commas; the code stores just 1, because
the Python rstrip removes every trailing comma. -/
theorem field_value_single_comma_cex :
    parse_resource ("resource \"t\" \"n\" \x7b\n x = 1,,,\n\x7d") =
      [((("t"), ("n")), [(("x"), ("1"))])] ∧
    String.mk (rstripOneComma (trimChars ((" 1,,,").data))) = ("1,,") ∧
    ¬ (("1") = ("1,,")) := by
  refine ⟨by decide, by decide, by decide⟩

/-- C10: the resource-declaration pattern is anchored at the first character
of the line, so a line beginning with whitespace never opens a resource, and
processing such a line never puts a key into the model beyond the key of the
block that is already open. -/
theorem indented_line_opens_no_resource (c : Char) (l : List Char)
    (st : Option ResourceKey × Model) (h : c.isWhitespace = true) :
    matchResourceDecl (c :: l) = none ∧
    ∀ k, k ∈ modelKeys (parseStep st (c :: l)).2 →
      k ∈ modelKeys st.2 ∨ st.1 = some k := by
  have hm := matchResourceDecl_ws c l h
  refine ⟨hm, ?_⟩
  intro k hk
  unfold parseStep at hk
  rw [hm] at hk
  cases hcur : st.1 with
  | none =>
    rw [hcur] at hk
    exact Or.inl hk
  | some key =>
    rw [hcur] at hk
    simp only at hk
    split at hk
    · simp only at hk
      rw [mem_modelKeys_updA] at hk
      rcases hk with hk | hk
      · exact Or.inl hk
      · subst hk
        exact Or.inr rfl
    · split at hk
      · exact Or.inl hk
      · exact Or.inl hk

/-- Witness for C10 at an indented resource declaration and the empty state. -/
theorem indented_line_opens_no_resource_witness :
    (' ').isWhitespace = true ∧
    (matchResourceDecl (' ' :: (("resource \"a\" \"b\" \x7b").data)) = none ∧
     ∀ k, k ∈ modelKeys (parseStep exSt (' ' :: (("resource \"a\" \"b\" \x7b").data))).2 →
       k ∈ modelKeys exSt.2 ∨ exSt.1 = some k) :=
  ⟨by decide,
    indented_line_opens_no_resource ' ' (("resource \"a\" \"b\" \x7b").data) exSt
      (by decide)⟩
